import Mathlib

/-
Verification development for the dotcord core (Go sources under internal/core,
internal/config and the backup/transaction modules).  Each Go function that a
claim touches is embedded as an executable Lean definition; machine time is
modelled in whole seconds as `Int`, process ids as `Int`, and the liveness
probe as an explicit predicate argument.
-/

namespace Dotcord

/-- Parsed contents of the lock file, mirroring `core.LockInfo`
(fields PID, Timestamp, Hostname); the RFC3339 timestamp is modelled as
Unix seconds. -/
structure LockInfo where
  pid : Int
  timestamp : Int
  hostname : String
deriving DecidableEq

/-- The constant `LockTimeout = 30 * time.Second` declared at the top of
lock.go, in seconds. -/
def lockTimeoutSeconds : Int := 30

/-- The literal `time.Hour` that `IsStale` compares the record age against,
in seconds. -/
def hourSeconds : Int := 3600

/-- Embedding of `core.IsStale`: `rec` is the outcome of `ReadLockInfo`
(`none` = malformed file), `now` the current time in Unix seconds, and
`alive` the liveness probe `isProcessAlive` (which on this code path never
returns an error).  A malformed record is stale; a record older than one
hour is stale; otherwise the record is stale exactly when the recorded
process is not alive. -/
def isStale (rec : Option LockInfo) (now : Int) (alive : Int → Bool) : Bool :=
  match rec with
  | none => true
  | some info =>
    if now - info.timestamp > hourSeconds then true
    else !(alive info.pid)

/-- Outcome of `core.ReleaseLock`. -/
inductive ReleaseResult where
  | noLock                 -- lock file absent: return nil without removing
  | removed                -- os.Remove of the lock file
  | notOwner (owner : Int) -- error "cannot release lock owned by PID %d"
deriving DecidableEq

/-- Embedding of `core.ReleaseLock`: `present` is `fs.FileExists(lockPath)`,
`rec` the outcome of `ReadLockInfo` (`none` = unreadable or malformed), and
`selfPid` is `os.Getpid()`.  If the file is absent, nothing to release; if
the record cannot be read, the file is removed anyway; if the recorded owner
differs from the caller, the call fails and the file is left in place;
otherwise the file is removed. -/
def releaseLock (present : Bool) (rec : Option LockInfo) (selfPid : Int) :
    ReleaseResult :=
  if !present then .noLock
  else
    match rec with
    | none => .removed
    | some info =>
      if info.pid ≠ selfPid then .notOwner info.pid
      else .removed

/-
Race model for `core.AcquireLock` against an empty lock directory.  With no
pre-existing lock file the function performs exactly two filesystem steps
that other processes can observe: the `fs.FileExists(lockPath)` check, and
`writeLockFile` (an unconditional `os.WriteFile`, which succeeds whether or
not the file already exists).  The stale/held branches only run when the
check saw a file, so for the empty-directory race the per-process program is
the two-step check-then-write below.  A schedule is the list of turns; each
turn lets one of the two processes run its next step.
-/

/-- Progress of one process through `AcquireLock`. -/
inductive AcqPhase where
  | start                    -- about to run fs.FileExists
  | checked (saw : Bool)     -- result of the existence check
  | done (acquired : Bool)   -- returned (nil error = acquired)
deriving DecidableEq

/-- Shared filesystem plus the two racing processes. -/
structure RaceState where
  lockPresent : Bool
  p1 : AcqPhase
  p2 : AcqPhase
deriving DecidableEq

/-- One step of one process: the existence check reads `lockPresent`; a
process that saw no lock runs `writeLockFile`, which creates the file and
returns success; a process that saw a lock returns the `ErrLockHeld` /
`ErrStaleLock` branch, i.e. does not acquire. -/
def acqStep (present : Bool) (ph : AcqPhase) : Bool × AcqPhase :=
  match ph with
  | .start => (present, .checked present)
  | .checked saw =>
    if saw then (present, .done false)
    else (true, .done true)
  | .done a => (present, .done a)

/-- Run one scheduled turn: `false` lets process 1 move, `true` process 2. -/
def raceStep (s : RaceState) (who : Bool) : RaceState :=
  if who then
    let (pres, ph) := acqStep s.lockPresent s.p2
    { s with lockPresent := pres, p2 := ph }
  else
    let (pres, ph) := acqStep s.lockPresent s.p1
    { s with lockPresent := pres, p1 := ph }

/-- Run a whole schedule from a state. -/
def raceRun (s : RaceState) (sched : List Bool) : RaceState :=
  sched.foldl raceStep s

/-- Both processes at the start, no lock file: the empty lock directory. -/
def raceInit : RaceState :=
  { lockPresent := false, p1 := .start, p2 := .start }

/-
Transaction model (core/transaction.go).  An Operation's forward and inverse
actions are modelled by their outcomes: `doErr` / `undoErr` are `none` on
success and `some msg` on failure, and `descr` is `Describe()`.  Calls made
to the actions are recorded in an explicit event trace so that claims about
which actions run, and in which order, are statements about the trace.
-/

/-- Outcome model of one `core.Operation`. -/
structure Op where
  descr : String
  doErr : Option String
  undoErr : Option String
deriving DecidableEq

/-- One recorded call to an operation's forward (`Do`) or inverse (`Undo`)
action, identified by the operation's description. -/
inductive TraceEv where
  | doCall (descr : String)
  | undoCall (descr : String)
deriving DecidableEq

/-- Errors returned by the transaction methods, mirroring the `fmt.Errorf`
messages in the source.  `execFailed` is "executing %s: %w"; `rollbackErrs`
is "rollback errors: %w" wrapping the `errors.Join` of one
"rolling back %s: %w" entry per failed inverse, in the order encountered. -/
inductive TxErr where
  | alreadyCommitted
  | cannotRollbackCommitted
  | execFailed (descr : String) (underlying : String)
  | rollbackErrs (errs : List (String × String))
deriving DecidableEq

/-- The `core.Transaction` struct: planned operations, executed stack
(most recent last) and the committed flag. -/
structure Tx where
  operations : List Op
  executed : List Op
  committed : Bool
deriving DecidableEq

/-- Embedding of `core.NewTransaction`. -/
def newTransaction : Tx :=
  { operations := [], executed := [], committed := false }

/-- The error-collecting loop of `core.Transaction.Rollback`: the source
iterates `i` from `len(executed)-1` down to `0`, so this fold receives the
executed stack already reversed and appends one entry per failed `Undo`
in encounter order (collecting, never overwriting). -/
def rollbackLoop (ops : List Op) : List (String × String) :=
  ops.foldl
    (fun errs op =>
      match op.undoErr with
      | some e => errs ++ [(op.descr, e)]
      | none => errs)
    []

/-- Embedding of `core.Transaction.Rollback`: on a committed transaction it
fails at once (no inverse runs, the stack is untouched); otherwise every
executed operation's `Undo` is invoked in reverse order, failures are
collected, the executed stack is cleared unconditionally, and the joined
failures (if any) are returned. -/
def rollback (t : Tx) : Tx × Option TxErr × List TraceEv :=
  if t.committed then (t, some .cannotRollbackCommitted, [])
  else
    let errs := rollbackLoop t.executed.reverse
    ({ t with executed := [] },
     if errs = [] then none else some (.rollbackErrs errs),
     t.executed.reverse.map (fun op => TraceEv.undoCall op.descr))

/-- Claim-side description of rollback, written from the spec sentence: pop
the executed stack from the end invoking each inverse, collect every
inverse failure without stopping, clear the stack regardless, and fail on a
committed transaction.  Stated separately from `rollback` so that agreement
with the source is a theorem, not a definition. -/
def rollbackSpec (t : Tx) : Tx × Option TxErr × List TraceEv :=
  if t.committed then (t, some .cannotRollbackCommitted, [])
  else
    let inv := t.executed.reverse
    let failures := inv.filterMap (fun op => op.undoErr.map (fun e => (op.descr, e)))
    ({ t with executed := [] },
     if failures = [] then none else some (.rollbackErrs failures),
     inv.map fun op => TraceEv.undoCall op.descr)

/-- Embedding of `core.Transaction.Execute`: a committed transaction is
rejected before the forward action runs; otherwise the forward action is
invoked, success pushes the operation onto the executed stack, and failure
triggers `rollback` (its own error is discarded, as in the source) and
returns the forward error wrapped with the operation's description. -/
def execute (t : Tx) (op : Op) : Tx × Option TxErr × List TraceEv :=
  if t.committed then (t, some .alreadyCommitted, [])
  else
    match op.doErr with
    | none => ({ t with executed := t.executed ++ [op] }, none, [.doCall op.descr])
    | some e =>
      let r := rollback t
      (r.1, some (.execFailed op.descr e), .doCall op.descr :: r.2.2)

/-
Path model (config/paths.go).  `NormalizePath` works on raw strings with
`strings.HasPrefix` / `strings.TrimPrefix`, so the string functions are
embedded at the character-list level, where that behaviour (and the claims
about it) are visible.  `filepath.Clean` is modelled for rooted paths, the
only shape these call sites feed it.
-/

/-- Character-level string, the carrier for the path-string model. -/
abbrev Str := List Char

/-- Embedding of `strings.HasPrefix s pre`: `strHasLead pre s` is true when
`pre` is a leading character run of `s`. -/
def strHasLead : Str → Str → Bool
  | [], _ => true
  | _ :: _, [] => false
  | a :: pre, b :: s => a = b && strHasLead pre s

/-- Embedding of `strings.TrimPrefix s pre`. -/
def trimLead (pre s : Str) : Str :=
  if strHasLead pre s then s.drop pre.length else s

/-- Split a character string on the path separator; the result always has at
least one (possibly empty) segment. -/
def splitSlash : Str → List Str
  | [] => [[]]
  | c :: rest =>
    match splitSlash rest with
    | [] => [[c]]
    | s :: ss => if c = '/' then [] :: s :: ss else (c :: s) :: ss

/-- The segment loop of `filepath.Clean` on a rooted path: empty and `.`
segments vanish, `..` pops the previous kept segment (and is discarded at
the root), anything else is kept. -/
def cleanSegsLoop (acc : List Str) : List Str → List Str
  | [] => acc
  | seg :: rest =>
    if seg = [] ∨ seg = ['.'] then cleanSegsLoop acc rest
    else if seg = ['.', '.'] then cleanSegsLoop acc.dropLast rest
    else cleanSegsLoop (acc ++ [seg]) rest

/-- Embedding of `filepath.Clean` restricted to rooted paths (every call
site below passes an absolute path): split on the separator, run the
segment loop, rejoin with one leading separator; the empty segment list is
the root itself. -/
def cleanAbs (p : Str) : Str :=
  match cleanSegsLoop [] (splitSlash p) with
  | [] => ['/']
  | segs => segs.foldl (fun acc s => acc ++ '/' :: s) []

/-- Embedding of `config.ExpandPath` for inputs without environment
references (so `os.ExpandEnv` is the identity): a bare `~` returns the home
directory unmodified; a `~/`-led path joins onto home and is cleaned; any
other (absolute) input goes through `filepath.Abs`, which on an absolute
path is `filepath.Clean`. -/
def expandPath (home p : Str) : Str :=
  if p = ['~'] then home
  else if strHasLead ['~', '/'] p then cleanAbs (home ++ p.drop 1)
  else cleanAbs p

/-- Embedding of `config.NormalizePath`: expand, clean both the expanded
path and the home directory, then, when the home string is a character
run leading the expanded string (`strings.HasPrefix`), replace it with the
`~` marker, inserting a separator when the remainder does not begin with
one; otherwise return the cleaned expansion unchanged. -/
def normalizePath (home p : Str) : Str :=
  let expanded := cleanAbs (expandPath home p)
  let h := cleanAbs home
  if strHasLead h expanded then
    let relative := trimLead h expanded
    if relative = [] then ['~']
    else if relative.head? = some '/' then '~' :: relative
    else '~' :: '/' :: relative
  else expanded

/-
Relative-path model (config/paths.go, ComputeRelativeSymlink).  After
`ExpandPath` both arguments are clean rooted paths, on which `filepath.Dir`,
`filepath.Rel` and `filepath.Join`+`Clean` act segment-wise; the model
therefore represents such a path by its list of segments (each nonempty and
neither `.` nor `..`).
-/

/-- Well-formed segment list of a clean rooted path. -/
def CleanComps (p : List String) : Prop :=
  ∀ c ∈ p, c ≠ "" ∧ c ≠ "." ∧ c ≠ ".."

instance (p : List String) : Decidable (CleanComps p) :=
  inferInstanceAs (Decidable (∀ c ∈ p, c ≠ "" ∧ c ≠ "." ∧ c ≠ ".."))

/-- Core of `filepath.Rel(base, target)` for clean rooted paths: drop the
longest common leading run of segments, then one `..` per remaining base
segment followed by the remaining target segments.  `filepath.Rel`
returns `.` when the paths coincide; segment-wise that is the empty list,
which joins and cleans to the base itself. -/
def relComps : List String → List String → List String
  | b :: bs, t :: ts =>
    if b = t then relComps bs ts
    else List.replicate (bs.length + 1) ".." ++ (t :: ts)
  | [], ts => ts
  | bs, [] => List.replicate bs.length ".."

/-- The segment loop of `filepath.Clean` at the segment-list level, used to
model `filepath.Clean (filepath.Join dir rel)` on rooted `dir`. -/
def cleanCompsLoop (acc : List String) : List String → List String
  | [] => acc
  | c :: rest =>
    if c = "" ∨ c = "." then cleanCompsLoop acc rest
    else if c = ".." then cleanCompsLoop acc.dropLast rest
    else cleanCompsLoop (acc ++ [c]) rest

/-- Embedding of `config.ComputeRelativeSymlink` on expanded paths: the
directory containing the link (`filepath.Dir`, i.e. all but the last
segment) to the target, via `filepath.Rel`. -/
def computeRelativeSymlink (link targ : List String) : List String :=
  relComps link.dropLast targ

/-
Backup model (core/backup.go).  A filesystem is the list of paths that
exist; the bucket directory name `tsdir` stands for
`filepath.Join(backupDir, time.Now().Format(TimestampFormat))`, fixed
across calls that fall in the same one-second window.
-/

/-- Embedding of `filepath.Ext`: the suffix starting at the final dot,
empty when the name has no dot. -/
def extOf : Str → Str
  | [] => []
  | c :: rest =>
    if rest.contains '.' then extOf rest
    else if c = '.' then c :: rest
    else extOf rest

/-- Decimal digit string of a counter value, modelling the `%d` verb of the
`fmt.Sprintf("%s_%d%s", ...)` collision format. -/
def decimalStr (n : Nat) : Str :=
  (Nat.digits 10 n).reverse.map (fun d => Char.ofNat (48 + d))

/-- The backup path tried on the n-th turn of the collision loop in
`core.CreateBackup`: attempt 0 is `filepath.Join(timestampDir, filename)`;
attempt n ≥ 1 splits the extension off the original filename and inserts
`_n` before it. -/
def bkCandidate (tsdir filename : Str) (n : Nat) : Str :=
  if n = 0 then tsdir ++ '/' :: filename
  else
    let ext := extOf filename
    let nm := filename.take (filename.length - ext.length)
    tsdir ++ '/' :: (nm ++ '_' :: (decimalStr n ++ ext))

/-- The collision loop of `core.CreateBackup`: starting from attempt `i`,
return the first candidate not already on disk.  The Go loop carries no
bound; the fuel argument is a modelling device only, and
`files.length + 1` is proved sufficient below, so the bounded loop agrees
with the unbounded one. -/
def findFreshLoop (files : List Str) (cand : Nat → Str) : Nat → Nat → Option Str
  | _, 0 => none
  | i, fuel + 1 =>
    if cand i ∈ files then findFreshLoop files cand (i + 1) fuel
    else some (cand i)

/-- Embedding of the naming logic of `core.CreateBackup` for an existing
source file: pick the first non-colliding candidate path inside the
timestamp bucket (the subsequent copy then creates exactly that path). -/
def createBackup (files : List Str) (tsdir filename : Str) : Option Str :=
  findFreshLoop files (bkCandidate tsdir filename) 0 (files.length + 1)

/-- Repeated `CreateBackup` calls on the same source within one second (so
the bucket `tsdir` is unchanged): each successful call adds the created
backup file to the filesystem seen by the next call. -/
def repeatCreate (tsdir filename : Str) : List Str → Nat → List Str
  | _, 0 => []
  | files, k + 1 =>
    match createBackup files tsdir filename with
    | some p => p :: repeatCreate tsdir filename (p :: files) k
    | none => []

/-
Cleanup model (core/backup.go, CleanOldBackups).  A bucket directory is its
name, parsed timestamp (Unix seconds) and total size; `removeOk` models
whether `fs.RemoveAll` succeeds on a given bucket.
-/

/-- One parsed timestamp directory under the backup root. -/
structure BackupDirEntry where
  name : String
  timestamp : Int
  size : Int
deriving DecidableEq

/-- Ordering used by the `sort.Slice` call: `a` comes before `b` when `b`'s
timestamp is not after `a`'s (newest first). -/
def newerFirst (a b : BackupDirEntry) : Prop :=
  b.timestamp ≤ a.timestamp

instance : DecidableRel newerFirst := fun a b =>
  inferInstanceAs (Decidable (b.timestamp ≤ a.timestamp))

instance : IsTotal BackupDirEntry newerFirst :=
  ⟨fun a b => le_total b.timestamp a.timestamp⟩

instance : IsTrans BackupDirEntry newerFirst :=
  ⟨fun _ _ _ hab hbc => le_trans hbc hab⟩

/-- The `sort.Slice(dirs, ...)` step: sort buckets newest-first. -/
def sortDesc (ds : List BackupDirEntry) : List BackupDirEntry :=
  ds.insertionSort newerFirst

/-- The selection loop of `core.CleanOldBackups` over the sorted buckets:
the first `keepLast` indices are skipped unconditionally, and of the rest
exactly those strictly older than the cutoff are scheduled for deletion. -/
def selectOld (keepLast : Nat) (cutoff : Int) : Nat → List BackupDirEntry → List BackupDirEntry
  | _, [] => []
  | i, d :: rest =>
    if i < keepLast then selectOld keepLast cutoff (i + 1) rest
    else if d.timestamp < cutoff then d :: selectOld keepLast cutoff (i + 1) rest
    else selectOld keepLast cutoff (i + 1) rest

/-- Embedding of `core.CleanOldBackups`: sort newest-first, schedule every
bucket past the first `keepLast` whose timestamp is before
`now - olderThan`, accumulate `totalSize` over every scheduled bucket
(before any deletion is attempted), then delete, counting only the buckets
whose removal succeeds and skipping failures. -/
def cleanOldBackups (entries : List BackupDirEntry) (now olderThan : Int)
    (keepLast : Nat) (removeOk : String → Bool) : Nat × Int :=
  let dirs := sortDesc entries
  let cutoff := now - olderThan
  let toDelete := selectOld keepLast cutoff 0 dirs
  let totalSize := (toDelete.map (fun d => d.size)).sum
  let deleted := (toDelete.filter (fun d => removeOk d.name)).length
  (deleted, totalSize)

/-
Theorems.
-/

/-- Claim C1 (code bug in the source): `AcquireLock` is a separate
existence check followed by a separate unconditional write, so under the
schedule in which both processes run their existence check before either
writes, both observe no lock and both acquire — the claim that exactly one
of two racing `acquire()` calls succeeds is violated by the code. -/
theorem acquire_race_both_succeed :
    (raceRun raceInit [false, true, false, true]).p1 = AcqPhase.done true
    ∧ (raceRun raceInit [false, true, false, true]).p2 = AcqPhase.done true
    ∧ (raceRun raceInit [false, true, false, true]).lockPresent = true := by
  decide

/-- Claim C4 (code bug in the source): the age comparison inside `IsStale`
uses the literal `time.Hour`, not the declared `LockTimeout` constant; the
two thresholds are different, and a live-owner record older than
`LockTimeout` but younger than an hour is not reported stale. -/
theorem isStale_threshold_disconnected :
    hourSeconds ≠ lockTimeoutSeconds
    ∧ isStale (some ⟨1, 0, "h"⟩) 120 (fun _ => true) = false
    ∧ (120 : Int) - (0 : Int) > lockTimeoutSeconds := by
  decide

/-- Claim C5: a record whose owner process is not alive is stale regardless
of its age; a record younger than the staleness threshold owned by the
probing process's own live pid is not stale; a malformed record is always
stale. -/
theorem isStale_detection (deadRec liveRec : LockInfo) (now selfPid : Int)
    (alive : Int → Bool)
    (hdead : alive deadRec.pid = false)
    (hyoung : now - liveRec.timestamp < hourSeconds)
    (hown : liveRec.pid = selfPid)
    (hlive : alive selfPid = true) :
    isStale (some deadRec) now alive = true
    ∧ isStale (some liveRec) now alive = false
    ∧ isStale none now alive = true := by
  refine ⟨?_, ?_, rfl⟩
  · simp only [isStale]
    split
    · rfl
    · simp [hdead]
  · simp only [isStale]
    rw [if_neg (by omega)]
    simp [hown, hlive]

/-- Witness for C5 at concrete inputs: pid 7 is the live probing process,
pid 99 is dead, both records were written at time 0 and the probe runs at
time 10. -/
theorem isStale_detection_witness :
    isStale (some ⟨99, 0, "h"⟩) 10 (fun p => decide (p = 7)) = true
    ∧ isStale (some ⟨7, 0, "h"⟩) 10 (fun p => decide (p = 7)) = false
    ∧ isStale none 10 (fun p => decide (p = 7)) = true :=
  isStale_detection ⟨99, 0, "h"⟩ ⟨7, 0, "h"⟩ 10 7 (fun p => decide (p = 7))
    (by decide) (by decide) (by decide) (by decide)

/-- Claim C6 counterexample: on an existing lock file whose record cannot
be parsed, `ReleaseLock` removes the file instead of failing with the
not-owner error and leaving the record on disk. -/
theorem releaseLock_unreadable_removed :
    releaseLock true none 42 = ReleaseResult.removed := by
  rfl

/-- Claim C6 as amended: with no lock file, release is a no-op; an
unreadable record is removed anyway; a parseable record is removed exactly
when the recorded owner is the caller's own pid, and otherwise the call
fails naming the owner and the record stays. -/
theorem releaseLock_behavior (info : LockInfo) (rec0 : Option LockInfo) (selfPid : Int) :
    releaseLock false rec0 selfPid = ReleaseResult.noLock
    ∧ releaseLock true none selfPid = ReleaseResult.removed
    ∧ releaseLock true (some info) selfPid =
        (if info.pid = selfPid then ReleaseResult.removed
         else ReleaseResult.notOwner info.pid) := by
  refine ⟨rfl, rfl, ?_⟩
  by_cases h : info.pid = selfPid <;> simp [releaseLock, h]

/-- The error-collecting fold of `Rollback`, run from any accumulator,
appends exactly the failures that `filterMap` selects, in order. -/
theorem rollbackLoop_append (acc : List (String × String)) (ops : List Op) :
    ops.foldl
      (fun errs op =>
        match op.undoErr with
        | some e => errs ++ [(op.descr, e)]
        | none => errs) acc
    = acc ++ ops.filterMap (fun op => op.undoErr.map (fun e => (op.descr, e))) := by
  induction ops generalizing acc with
  | nil => simp
  | cons op rest ih =>
    cases h : op.undoErr <;> simp [List.foldl_cons, h, ih]

/-- The rollback loop collects exactly the inverse failures, in the order
the inverses are invoked. -/
theorem rollbackLoop_eq_filterMap (ops : List Op) :
    rollbackLoop ops
      = ops.filterMap (fun op => op.undoErr.map (fun e => (op.descr, e))) := by
  simpa using rollbackLoop_append [] ops

/-- Claim C2: `Rollback` agrees with the spec-side description — every
executed operation's inverse is invoked in strict reverse order of
execution, a failing inverse does not stop the rest, all inverse failures
are collected and returned together, and the executed stack is cleared even
when some inverses failed; a transaction with zero executed operations
rolls back as a no-op, and rollback of a committed transaction fails with
the cannot-rollback-committed error. -/
theorem rollback_matches_spec (t : Tx) (ops : List Op) :
    rollback t = rollbackSpec t
    ∧ rollback { operations := ops, executed := [], committed := false }
        = ({ operations := ops, executed := [], committed := false }, none, [])
    ∧ (rollback { operations := ops, executed := t.executed, committed := true }).2.1
        = some TxErr.cannotRollbackCommitted := by
  refine ⟨?_, by simp [rollback, rollbackLoop], by simp [rollback]⟩
  unfold rollback rollbackSpec
  by_cases h : t.committed
  · simp [h]
  · simp [h, rollbackLoop_eq_filterMap]

/-- Claim C3 counterexample: a transaction that has been rolled back (and
not committed) still accepts `Execute` — the call succeeds and the
operation's forward action is invoked, instead of failing with the
transaction-closed error. -/
theorem execute_after_rollback_accepted :
    (execute (rollback (execute newTransaction ⟨"op1", none, none⟩).1).1
        ⟨"op2", none, none⟩).2.1 = none
    ∧ (execute (rollback (execute newTransaction ⟨"op1", none, none⟩).1).1
        ⟨"op2", none, none⟩).2.2 = [TraceEv.doCall "op2"] := by
  exact ⟨rfl, rfl⟩

/-- Claim C3 as amended: `Execute` fails with the transaction-closed error,
without invoking the forward action, exactly when the transaction has been
committed (a rolled-back but uncommitted transaction accepts further
operations); on an uncommitted transaction a successful forward action
pushes the operation onto the executed stack, and a failing forward action
triggers `rollback` and returns the original error wrapped with the
operation's description. -/
theorem execute_behavior (tc t : Tx) (op opf : Op) (e : String)
    (hc : tc.committed = true) (ho : t.committed = false)
    (hok : op.doErr = none) (hf : opf.doErr = some e) :
    execute tc op = (tc, some TxErr.alreadyCommitted, [])
    ∧ execute t op
        = ({ t with executed := t.executed ++ [op] }, none, [TraceEv.doCall op.descr])
    ∧ execute t opf
        = ((rollback t).1, some (TxErr.execFailed opf.descr e),
           TraceEv.doCall opf.descr :: (rollback t).2.2) := by
  refine ⟨?_, ?_, ?_⟩
  · simp [execute, hc]
  · simp [execute, ho, hok]
  · simp [execute, ho, hf]

/-- Witness for the amended C3 at concrete inputs: a committed transaction
rejects an operation; the fresh transaction accepts one and pushes it; a
failing operation on the fresh transaction reports its description wrapped
around the underlying error. -/
theorem execute_behavior_witness :
    execute ⟨[], [], true⟩ ⟨"a", none, none⟩
        = (⟨[], [], true⟩, some TxErr.alreadyCommitted, [])
    ∧ execute newTransaction ⟨"a", none, none⟩
        = ({ newTransaction with
              executed := newTransaction.executed ++ [⟨"a", none, none⟩] },
           none, [TraceEv.doCall "a"])
    ∧ execute newTransaction ⟨"b", some "boom", none⟩
        = ((rollback newTransaction).1, some (TxErr.execFailed "b" "boom"),
           TraceEv.doCall "b" :: (rollback newTransaction).2.2) :=
  execute_behavior ⟨[], [], true⟩ newTransaction ⟨"a", none, none⟩
    ⟨"b", some "boom", none⟩ "boom" rfl rfl rfl rfl

/-- Claim C7 (code bug in the source): `NormalizePath` tests mere string
leadership of the home directory, so the sibling directory
`/home/userx` of home `/home/user` is rewritten to `~` notation; the
rewritten form expands back to `/home/user/x/f`, not to the (already
clean) original `/home/userx/f`, so normalize is not the inverse of expand
there, although the claim says such a path is returned unchanged. -/
theorem normalize_sibling_of_home_mangled :
    normalizePath "/home/user".toList "/home/userx/f".toList = "~/x/f".toList
    ∧ expandPath "/home/user".toList
        (normalizePath "/home/user".toList "/home/userx/f".toList)
        = "/home/user/x/f".toList
    ∧ cleanAbs "/home/userx/f".toList = "/home/userx/f".toList
    ∧ "/home/user/x/f".toList ≠ "/home/userx/f".toList := by
  decide

/-- Running the clean loop over a run of already-clean segments appends
them all to the accumulator. -/
theorem cleanCompsLoop_clean (ts : List String) (ht : CleanComps ts) :
    ∀ acc, cleanCompsLoop acc ts = acc ++ ts := by
  induction ts with
  | nil => intro acc; simp [cleanCompsLoop]
  | cons c rest ih =>
    intro acc
    obtain ⟨h1, h2, h3⟩ := ht c (List.mem_cons_self c rest)
    have hr : CleanComps rest := fun x hx => ht x (List.mem_cons_of_mem c hx)
    simp [cleanCompsLoop, h1, h2, h3, ih hr]

/-- A clean segment run at the front of the input moves wholesale onto the
accumulator. -/
theorem cleanCompsLoop_append_clean (bs : List String) (hb : CleanComps bs) :
    ∀ acc rest, cleanCompsLoop acc (bs ++ rest) = cleanCompsLoop (acc ++ bs) rest := by
  induction bs with
  | nil => intro acc rest; simp
  | cons b bs ih =>
    intro acc rest
    obtain ⟨h1, h2, h3⟩ := hb b (List.mem_cons_self b bs)
    have hr : CleanComps bs := fun x hx => hb x (List.mem_cons_of_mem b hx)
    have step : cleanCompsLoop acc ((b :: bs) ++ rest)
        = cleanCompsLoop (acc ++ [b]) (bs ++ rest) := by
      simp [cleanCompsLoop, h1, h2, h3]
    rw [step, ih hr (acc ++ [b]) rest, List.append_assoc, List.singleton_append]

/-- One parent-reference segment pops one segment off the accumulator, so a
run of `bs.length` of them consumes the `bs` suffix entirely. -/
theorem cleanCompsLoop_pops (bs : List String) :
    ∀ acc rest,
      cleanCompsLoop (acc ++ bs) (List.replicate bs.length ".." ++ rest)
        = cleanCompsLoop acc rest := by
  induction bs using List.reverseRecOn with
  | nil => intro acc rest; simp
  | append_singleton bs x ih =>
    intro acc rest
    rw [List.length_append, List.length_singleton, List.replicate_succ,
      List.cons_append, ← List.append_assoc]
    show cleanCompsLoop ((acc ++ bs) ++ [x]) (".." :: (List.replicate bs.length ".." ++ rest))
      = cleanCompsLoop acc rest
    rw [cleanCompsLoop]
    rw [if_neg (by simp), if_pos rfl, List.dropLast_concat, ih acc rest]

/-- Joining the relative segments computed by `relComps` back onto the base
and cleaning reproduces the target, for clean rooted inputs. -/
theorem cleanCompsLoop_rel (bs : List String) :
    ∀ ts acc, CleanComps bs → CleanComps ts →
      cleanCompsLoop acc (bs ++ relComps bs ts) = acc ++ ts := by
  induction bs with
  | nil =>
    intro ts acc _ ht
    simpa [relComps] using cleanCompsLoop_clean ts ht acc
  | cons b bs ih =>
    intro ts acc hb ht
    cases ts with
    | nil =>
      have hrel : relComps (b :: bs) [] = List.replicate (b :: bs).length ".." := rfl
      rw [hrel, ← List.append_nil (List.replicate (b :: bs).length ".."),
        cleanCompsLoop_append_clean (b :: bs) hb acc _,
        cleanCompsLoop_pops (b :: bs) acc []]
      simp [cleanCompsLoop]
    | cons t ts2 =>
      have hb2 : CleanComps bs := fun x hx => hb x (List.mem_cons_of_mem b hx)
      have ht2 : CleanComps ts2 := fun x hx => ht x (List.mem_cons_of_mem t hx)
      obtain ⟨h1, h2, h3⟩ := hb b (List.mem_cons_self b bs)
      have hrel : relComps (b :: bs) (t :: ts2)
          = if b = t then relComps bs ts2
            else List.replicate (bs.length + 1) ".." ++ (t :: ts2) := rfl
      by_cases hbt : b = t
      · subst hbt
        rw [hrel, if_pos rfl]
        have step : cleanCompsLoop acc ((b :: bs) ++ relComps bs ts2)
            = cleanCompsLoop (acc ++ [b]) (bs ++ relComps bs ts2) := by
          simp [cleanCompsLoop, h1, h2, h3]
        rw [step, ih ts2 (acc ++ [b]) hb2 ht2]
        simp
      · rw [hrel, if_neg hbt,
          cleanCompsLoop_append_clean (b :: bs) hb acc _]
        have hlen : bs.length + 1 = (b :: bs).length := by simp
        rw [hlen, cleanCompsLoop_pops (b :: bs) acc (t :: ts2),
          cleanCompsLoop_clean (t :: ts2) ht acc]

/-- Claim C8: for clean rooted segment paths A (link) and B (target), the
relative path computed by `ComputeRelativeSymlink` from A's containing
directory to B, joined back onto that directory and cleaned, reproduces B
exactly. -/
theorem relative_symlink_round_trip (link targ : List String)
    (hl : CleanComps link) (ht : CleanComps targ) :
    cleanCompsLoop [] (link.dropLast ++ computeRelativeSymlink link targ) = targ := by
  have hld : CleanComps link.dropLast :=
    fun c hc => hl c ((List.dropLast_sublist link).subset hc)
  simpa [computeRelativeSymlink] using
    cleanCompsLoop_rel link.dropLast targ [] hld ht

/-- Witness for C8 at concrete inputs: link `/home/user/.config/nvim/init.lua`
and target `/home/user/.dotcord/files/nvim/init.lua`. -/
theorem relative_symlink_round_trip_witness :
    cleanCompsLoop []
      ((["home", "user", ".config", "nvim", "init.lua"] : List String).dropLast
        ++ computeRelativeSymlink ["home", "user", ".config", "nvim", "init.lua"]
            ["home", "user", ".dotcord", "files", "nvim", "init.lua"])
      = ["home", "user", ".dotcord", "files", "nvim", "init.lua"] :=
  relative_symlink_round_trip
    ["home", "user", ".config", "nvim", "init.lua"]
    ["home", "user", ".dotcord", "files", "nvim", "init.lua"]
    (by decide) (by decide)

/-- The extension computed by `extOf` is a suffix of the file name. -/
theorem extOf_append (s : Str) : ∃ pre, pre ++ extOf s = s := by
  induction s with
  | nil => exact ⟨[], rfl⟩
  | cons c rest ih =>
    by_cases h1 : rest.contains '.'
    · obtain ⟨pre, hp⟩ := ih
      refine ⟨c :: pre, ?_⟩
      show (c :: pre) ++ (if rest.contains '.' then extOf rest
        else if c = '.' then c :: rest else extOf rest) = c :: rest
      rw [if_pos h1, List.cons_append, hp]
    · by_cases h2 : c = '.'
      · refine ⟨[], ?_⟩
        show [] ++ (if rest.contains '.' then extOf rest
          else if c = '.' then c :: rest else extOf rest) = c :: rest
        rw [if_neg h1, if_pos h2, List.nil_append]
      · obtain ⟨pre, hp⟩ := ih
        refine ⟨c :: pre, ?_⟩
        show (c :: pre) ++ (if rest.contains '.' then extOf rest
          else if c = '.' then c :: rest else extOf rest) = c :: rest
        rw [if_neg h1, if_neg h2, List.cons_append, hp]

/-- Splitting the extension off a file name and gluing it back is the
identity: the `name` and `ext` parts of the collision format reassemble
the original file name. -/
theorem take_sub_ext (s : Str) :
    s.take (s.length - (extOf s).length) ++ extOf s = s := by
  obtain ⟨pre, hp⟩ := extOf_append s
  have hgen : ∀ (t e : Str), pre ++ e = t → t.take (t.length - e.length) ++ e = t := by
    intro t e h
    subst h
    rw [List.length_append, Nat.add_sub_cancel, List.take_left]
  exact hgen s (extOf s) hp

/-- Distinct decimal digits render to distinct characters. -/
theorem digitChar_injOn :
    ∀ a < 10, ∀ b < 10, Char.ofNat (48 + a) = Char.ofNat (48 + b) → a = b := by
  decide

/-- Character rendering of digit lists (all below ten) is injective. -/
theorem map_digitChar_inj (l1 : List Nat) :
    ∀ l2 : List Nat, (∀ d ∈ l1, d < 10) → (∀ d ∈ l2, d < 10) →
      l1.map (fun d => Char.ofNat (48 + d)) = l2.map (fun d => Char.ofNat (48 + d)) →
      l1 = l2 := by
  induction l1 with
  | nil =>
    intro l2 _ _ h
    cases l2 with
    | nil => rfl
    | cons b l2 => simp at h
  | cons a l1 ih =>
    intro l2 h1 h2 h
    cases l2 with
    | nil => simp at h
    | cons b l2 =>
      simp only [List.map_cons, List.cons.injEq] at h
      have hab : a = b :=
        digitChar_injOn a (h1 a (List.mem_cons_self a l1)) b
          (h2 b (List.mem_cons_self b l2)) h.1
      have htail : l1 = l2 :=
        ih l2 (fun d hd => h1 d (List.mem_cons_of_mem a hd))
          (fun d hd => h2 d (List.mem_cons_of_mem b hd)) h.2
      rw [hab, htail]

/-- The decimal rendering of the collision counter is injective. -/
theorem decimalStr_inj : Function.Injective decimalStr := by
  intro a b h
  have hrev : (Nat.digits 10 a).reverse = (Nat.digits 10 b).reverse :=
    map_digitChar_inj _ _
      (fun d hd => Nat.digits_lt_base (by norm_num) (List.mem_reverse.1 hd))
      (fun d hd => Nat.digits_lt_base (by norm_num) (List.mem_reverse.1 hd)) h
  have hd : Nat.digits 10 a = Nat.digits 10 b := List.reverse_injective hrev
  calc a = Nat.ofDigits 10 (Nat.digits 10 a) := (Nat.ofDigits_digits 10 a).symm
    _ = Nat.ofDigits 10 (Nat.digits 10 b) := by rw [hd]
    _ = b := Nat.ofDigits_digits 10 b

/-- The candidate backup paths tried by the collision loop are pairwise
distinct. -/
theorem bkCandidate_inj (tsdir filename : Str) :
    Function.Injective (bkCandidate tsdir filename) := by
  intro m n h
  by_cases hm : m = 0 <;> by_cases hn : n = 0
  · rw [hm, hn]
  · exfalso
    rw [hm] at h
    simp only [bkCandidate, if_pos rfl, if_neg hn] at h
    have h2 := List.append_cancel_left h
    have h3 := (List.cons.inj h2).2
    conv_lhs at h3 => rw [← take_sub_ext filename]
    have h4 := List.append_cancel_left h3
    have hlen := congrArg List.length h4
    simp at hlen
    omega
  · exfalso
    rw [hn] at h
    simp only [bkCandidate, if_pos rfl, if_neg hm] at h
    have h2 := List.append_cancel_left h
    have h3 := (List.cons.inj h2).2
    conv_rhs at h3 => rw [← take_sub_ext filename]
    have h4 := List.append_cancel_left h3
    have hlen := congrArg List.length h4
    simp at hlen
    omega
  · simp only [bkCandidate, if_neg hm, if_neg hn] at h
    have h2 := List.append_cancel_left h
    have h3 := (List.cons.inj h2).2
    have h4 := List.append_cancel_left h3
    have h5 := (List.cons.inj h4).2
    exact decimalStr_inj (List.append_cancel_right h5)

/-- If some candidate within the fuel window is free, the collision loop
returns a path that is not on disk, and it is one of the candidates. -/
theorem findFreshLoop_some (files : List Str) (cand : Nat → Str) :
    ∀ fuel i, (∃ k < fuel, cand (i + k) ∉ files) →
      ∃ r, findFreshLoop files cand i fuel = some r ∧ r ∉ files ∧ ∃ n, r = cand n := by
  intro fuel
  induction fuel with
  | zero =>
    rintro i ⟨k, hk, _⟩
    omega
  | succ fuel ih =>
    rintro i ⟨k, hk, hfree⟩
    by_cases hc : cand i ∈ files
    · have hk0 : k ≠ 0 := by
        rintro rfl
        rw [Nat.add_zero] at hfree
        exact hfree hc
      obtain ⟨k2, rfl⟩ := Nat.exists_eq_succ_of_ne_zero hk0
      have hnext : ∃ k < fuel, cand (i + 1 + k) ∉ files :=
        ⟨k2, by omega, by rw [show i + 1 + k2 = i + (k2 + 1) by omega]; exact hfree⟩
      obtain ⟨r, hr, hrf, n, hn⟩ := ih (i + 1) hnext
      exact ⟨r, by simp [findFreshLoop, hc, hr], hrf, n, hn⟩
    · exact ⟨cand i, by simp [findFreshLoop, hc], hc, i, rfl⟩

/-- Pigeonhole over the finite filesystem: among any `files.length + 1`
pairwise-distinct candidates one is not on disk. -/
theorem exists_fresh_candidate (files : List Str) (cand : Nat → Str)
    (hinj : Function.Injective cand) (i : Nat) :
    ∃ k < files.length + 1, cand (i + k) ∉ files := by
  by_contra hall
  push_neg at hall
  have hsub : ((List.range (files.length + 1)).map (fun k => cand (i + k))) ⊆ files := by
    intro x hx
    obtain ⟨k, hk, rfl⟩ := List.mem_map.1 hx
    exact hall k (List.mem_range.1 hk)
  have hnd : ((List.range (files.length + 1)).map (fun k => cand (i + k))).Nodup := by
    refine (List.nodup_range _).map ?_
    intro a b hab
    exact Nat.add_left_cancel (hinj hab)
  have hle := (List.subperm_of_subset hnd hsub).length_le
  simp at hle

/-- `createBackup` always succeeds, returning a candidate path that does
not collide with any existing file. -/
theorem createBackup_some (files : List Str) (tsdir filename : Str) :
    ∃ p, createBackup files tsdir filename = some p ∧ p ∉ files
      ∧ ∃ n, p = bkCandidate tsdir filename n := by
  have hfree := exists_fresh_candidate files (bkCandidate tsdir filename)
    (bkCandidate_inj tsdir filename) 0
  have := findFreshLoop_some files (bkCandidate tsdir filename) (files.length + 1) 0
    (by simpa using hfree)
  simpa [createBackup] using this

/-- A character run leads its own extension by anything. -/
theorem strHasLead_append (pre rest : Str) : strHasLead pre (pre ++ rest) = true := by
  induction pre with
  | nil => rfl
  | cons c pre ih => simp [strHasLead, ih]

/-- Every candidate path lies inside the timestamp bucket directory. -/
theorem bkCandidate_in_bucket (tsdir filename : Str) (n : Nat) :
    strHasLead (tsdir ++ ['/']) (bkCandidate tsdir filename n) = true := by
  have key : ∀ x : Str, strHasLead (tsdir ++ ['/']) (tsdir ++ '/' :: x) = true := by
    intro x
    have hx : tsdir ++ '/' :: x = (tsdir ++ ['/']) ++ x := by simp
    rw [hx]
    exact strHasLead_append _ _
  by_cases h : n = 0
  · rw [h]; exact key filename
  · simp only [bkCandidate, if_neg h]
    exact key _

/-- Repeated creation within one bucket yields pairwise-distinct paths,
none of which overwrites a pre-existing file. -/
theorem repeatCreate_fresh (tsdir filename : Str) :
    ∀ (k : Nat) (files : List Str),
      (repeatCreate tsdir filename files k).Nodup
      ∧ ∀ p ∈ repeatCreate tsdir filename files k, p ∉ files := by
  intro k
  induction k with
  | zero => intro files; simp [repeatCreate]
  | succ k ih =>
    intro files
    obtain ⟨p, hp, hpf, _⟩ := createBackup_some files tsdir filename
    have hrw : repeatCreate tsdir filename files (k + 1)
        = p :: repeatCreate tsdir filename (p :: files) k := by
      rw [repeatCreate, hp]
    constructor
    · rw [hrw]
      refine List.nodup_cons.2 ⟨?_, (ih (p :: files)).1⟩
      intro hmem
      have := (ih (p :: files)).2 p hmem
      simp at this
    · intro q hq
      rw [hrw] at hq
      rcases List.mem_cons.1 hq with h | h
      · rw [h]; exact hpf
      · have := (ih (p :: files)).2 q h
        intro hqf
        exact this (List.mem_cons_of_mem p hqf)

/-- Claim C9: for an existing source file, `CreateBackup` returns a path
inside the timestamp bucket of the current second, shaped as the original
file name or as that name with an incrementing numeric suffix inserted
before the extension, never colliding with an existing file; and repeated
calls within the same one-second window produce pairwise-distinct,
non-colliding backup paths, none overwriting a pre-existing backup. -/
theorem createBackup_fresh_distinct (files : List Str) (tsdir filename : Str) (k : Nat) :
    (∃ p, createBackup files tsdir filename = some p
       ∧ p ∉ files
       ∧ strHasLead (tsdir ++ ['/']) p = true
       ∧ ∃ n, p = bkCandidate tsdir filename n)
    ∧ (repeatCreate tsdir filename files k).Nodup
    ∧ ∀ p ∈ repeatCreate tsdir filename files k, p ∉ files := by
  obtain ⟨p, hp, hpf, n, hn⟩ := createBackup_some files tsdir filename
  exact ⟨⟨p, hp, hpf, hn ▸ bkCandidate_in_bucket tsdir filename n, n, hn⟩,
    (repeatCreate_fresh tsdir filename k files).1,
    (repeatCreate_fresh tsdir filename k files).2⟩

/-- The indexed selection loop of `CleanOldBackups` equals dropping the
protected first entries and filtering the rest by age. -/
theorem selectOld_drop (cutoff : Int) (keepLast : Nat) :
    ∀ (l : List BackupDirEntry) (i : Nat),
      selectOld keepLast cutoff i l
        = (l.drop (keepLast - i)).filter (fun d => decide (d.timestamp < cutoff)) := by
  intro l
  induction l with
  | nil => intro i; simp [selectOld]
  | cons d rest ih =>
    intro i
    by_cases hik : i < keepLast
    · rw [selectOld, if_pos hik, ih (i + 1)]
      have hs : keepLast - i = (keepLast - (i + 1)) + 1 := by omega
      rw [hs, List.drop_succ_cons]
    · rw [selectOld, if_neg hik]
      have h0 : keepLast - i = 0 := by omega
      have h1 : keepLast - (i + 1) = 0 := by omega
      by_cases hd : d.timestamp < cutoff
      · rw [if_pos hd, ih (i + 1), h0, h1, List.drop_zero, List.drop_zero,
          List.filter_cons_of_pos (by simpa using hd)]
      · rw [if_neg hd, ih (i + 1), h0, h1, List.drop_zero, List.drop_zero,
          List.filter_cons_of_neg (by simpa using hd)]

/-- Claim C10 counterexample: with two stale buckets of sizes 5 and 7 and a
removal that fails on the 5-byte bucket, the code reports 1 bucket deleted
but 12 bytes freed — the size total includes the bucket whose deletion
failed, while the bytes actually freed are 7. -/
theorem cleanOldBackups_counts_failed_bytes :
    cleanOldBackups [⟨"b1", 0, 5⟩, ⟨"b2", 1, 7⟩] 100 10 0 (fun nm => nm == "b2")
      = (1, 12)
    ∧ (12 : Int) ≠ 7 := by
  decide

/-- Claim C10 as amended: `CleanOldBackups` sorts the buckets newest-first
(the sorted list is a permutation of the input, sorted under the
newest-first order), never selects any of the first `keepLast` buckets of
that order, selects exactly the remaining buckets strictly older than the
cutoff `now - olderThan`, skips individual deletion failures, and returns
the count of buckets actually deleted together with the total size of all
selected buckets — including those whose deletion failed, not only the
bytes actually freed. -/
theorem cleanOldBackups_behavior (entries : List BackupDirEntry) (now olderThan : Int)
    (keepLast : Nat) (removeOk : String → Bool) :
    cleanOldBackups entries now olderThan keepLast removeOk
      = (((((sortDesc entries).drop keepLast).filter
              (fun d => decide (d.timestamp < now - olderThan))).filter
              (fun d => removeOk d.name)).length,
         (((((sortDesc entries).drop keepLast).filter
              (fun d => decide (d.timestamp < now - olderThan)))).map
              (fun d => d.size)).sum)
    ∧ List.Perm (sortDesc entries) entries
    ∧ List.Sorted newerFirst (sortDesc entries) := by
  refine ⟨?_, List.perm_insertionSort newerFirst entries,
    List.sorted_insertionSort newerFirst entries⟩
  have hsel := selectOld_drop (now - olderThan) keepLast (sortDesc entries) 0
  rw [Nat.sub_zero] at hsel
  simp only [cleanOldBackups, hsel]

end Dotcord
